import Mathlib

/-!
Verification of the Ptalk device-communication layer: the IMA ADPCM codec,
the per-connection audio-session controller, and the chunked OTA firmware
transfer coordinator, shallowly embedded from
`server_test/dummy_server.py`, `server_test/dummy_server_cmd.py`
and `server_test/serverOLD.py`.
-/

namespace Ptalk

/-! ## IMA ADPCM tables (`STEP_TABLE`, `INDEX_TABLE` in the Python sources) -/

def STEP_TABLE : List Nat := [
     7, 8, 9, 10, 11, 12, 13, 14, 16, 17,
    19, 21, 23, 25, 28, 31, 34, 37, 41, 45,
    50, 55, 60, 66, 73, 80, 88, 97, 107, 118,
    130, 143, 157, 173, 190, 209, 230, 253, 279, 307,
    337, 371, 408, 449, 494, 544, 598, 658, 724, 796,
    876, 963, 1060, 1166, 1282, 1411, 1552, 1707, 1878, 2066,
    2272, 2499, 2749, 3024, 3327, 3660, 4026, 4428, 4871, 5358,
    5894, 6484, 7132, 7845, 8630, 9493, 10442, 11487, 12635, 13899,
    15289, 16818, 18500, 20350, 22385, 24623, 27086, 29794, 32767]

def INDEX_TABLE : List Int := [-1, -1, -1, -1, 2, 4, 6, 8,
                               -1, -1, -1, -1, 2, 4, 6, 8]

/-- Codec state: the Python pair `(predictor, index)` threaded through
`adpcm_decode` and `adpcm_encode`. -/
abbrev AdpcmState := Int × Int

/-- `STEP_TABLE[index]`. The index is always kept in `[0, 88]` by the codec. -/
def stepOf (index : Int) : Nat := STEP_TABLE.getD index.toNat 0

/-- `INDEX_TABLE[nibble]`. -/
def indexDelta (nibble : Nat) : Int := INDEX_TABLE.getD nibble 0

/-- `predictor = max(-32768, min(32767, predictor))`. -/
def clampPred (p : Int) : Int := max (-32768) (min 32767 p)

/-- `index = max(0, min(88, index + ...))`. -/
def clampIndex (i : Int) : Int := max 0 (min 88 i)

/-! ## Codec of `dummy_server.py` (identical copy in `dummy_server_cmd.py`) -/

/-- Magnitude of the quantized difference as computed in `adpcm_decode`:
`diff = step >> 3; if nibble & 1: diff += step >> 2; if nibble & 2:
diff += step >> 1; if nibble & 4: diff += step`. -/
def decodeDiffMag (step nibble : Nat) : Nat :=
  step >>> 3
    + (if nibble &&& 1 ≠ 0 then step >>> 2 else 0)
    + (if nibble &&& 2 ≠ 0 then step >>> 1 else 0)
    + (if nibble &&& 4 ≠ 0 then step else 0)

/-- One nibble of `adpcm_decode`: returns the emitted 16-bit sample together
with the updated `(predictor, index)` state. -/
def decodeNibble (st : AdpcmState) (nibble : Nat) : Int × AdpcmState :=
  let step := stepOf st.2
  let d := decodeDiffMag step nibble
  let diff : Int := if nibble &&& 8 ≠ 0 then -(d : Int) else (d : Int)
  let predictor := clampPred (st.1 + diff)
  let index := clampIndex (st.2 + indexDelta nibble)
  (predictor, (predictor, index))

/-- `adpcm_decode(adpcm, state)` of `dummy_server.py`: for each byte process
`(b >> 4) & 0x0F` then `b & 0x0F`.  The emitted `pcm` bytearray is the
little-endian 16-bit serialization of the sample list returned here. -/
def adpcm_decode : List Nat → AdpcmState → List Int × AdpcmState
  | [], st => ([], st)
  | b :: bs, st =>
    let r1 := decodeNibble st ((b >>> 4) &&& 15)
    let r2 := decodeNibble r1.2 (b &&& 15)
    let rest := adpcm_decode bs r2.2
    (r1.1 :: r2.1 :: rest.1, rest.2)

/-- Decoding from a flat nibble list (the body of the inner `for nibble in`
loop of `adpcm_decode`, iterated over an arbitrary nibble sequence). -/
def decodeNibbles : List Nat → AdpcmState → List Int × AdpcmState
  | [], st => ([], st)
  | n :: ns, st =>
    let r := decodeNibble st n
    let rest := decodeNibbles ns r.2
    (r.1 :: rest.1, rest.2)

/-- The two nibbles of a byte in the order `adpcm_decode` visits them:
high nibble `(b >> 4) & 0x0F` first, then low nibble `b & 0x0F`. -/
def byteNibblesHL (b : Nat) : List Nat := [(b >>> 4) &&& 15, b &&& 15]

/-- The 4-bit code built by the quantization ladder of `adpcm_encode`:
sign bit from `diff < 0`, then successive comparison against `step`,
`step >> 1`, `step >> 2`, subtracting each matched threshold. -/
def encodeCode (st : AdpcmState) (s : Int) : Nat :=
  let step0 := stepOf st.2
  let diff0 := s - st.1
  let code0 : Nat := if diff0 < 0 then 8 else 0
  let diff1 := if code0 ≠ 0 then -diff0 else diff0
  let code1 := if diff1 ≥ (step0 : Int) then code0 ||| 4 else code0
  let diff2 := if diff1 ≥ (step0 : Int) then diff1 - step0 else diff1
  let step1 := step0 >>> 1
  let code2 := if diff2 ≥ (step1 : Int) then code1 ||| 2 else code1
  let diff3 := if diff2 ≥ (step1 : Int) then diff2 - step1 else diff2
  let step2 := step1 >>> 1
  if diff3 ≥ (step2 : Int) then code2 ||| 1 else code2

/-- Magnitude of the quantized difference as recomputed in the
`# Update predictor` block of `adpcm_encode`: `diffq = step >> 3;
if code & 4: diffq += step; if code & 2: diffq += step >> 1;
if code & 1: diffq += step >> 2`. -/
def encodeDiffMag (step code : Nat) : Nat :=
  step >>> 3
    + (if code &&& 4 ≠ 0 then step else 0)
    + (if code &&& 2 ≠ 0 then step >>> 1 else 0)
    + (if code &&& 1 ≠ 0 then step >>> 2 else 0)

/-- The `# Update predictor` block of `adpcm_encode`: the state update
applied after building the 4-bit code. -/
def encodeUpdate (st : AdpcmState) (code : Nat) : AdpcmState :=
  let step := stepOf st.2
  let d := encodeDiffMag step code
  let predictor := clampPred (st.1 + (if code &&& 8 ≠ 0 then -(d : Int) else (d : Int)))
  let index := clampIndex (st.2 + indexDelta code)
  (predictor, index)

/-- One sample of `adpcm_encode`: the produced code and the updated state. -/
def encodeSample (st : AdpcmState) (s : Int) : Nat × AdpcmState :=
  let c := encodeCode st s
  (c, encodeUpdate st c)

/-- The per-sample loop of `adpcm_encode`, threading the `high` flag and the
pending `byte` accumulator exactly as the Python loop does: a code arriving
with `high = True` is stored as `(code & 0x0F) << 4`; a code arriving with
`high = False` completes the byte, which is appended to the output. -/
def adpcm_encode_loop : List Int → AdpcmState → Bool → Nat → List Nat × AdpcmState
  | [], st, _, _ => ([], st)
  | s :: rest, st, high, byte =>
    let r := encodeSample st s
    if high then
      adpcm_encode_loop rest r.2 false ((r.1 &&& 15) <<< 4)
    else
      let out := adpcm_encode_loop rest r.2 true byte
      ((byte ||| (r.1 &&& 15)) :: out.1, out.2)

/-- `adpcm_encode(pcm, state)` of `dummy_server.py`, over the sample list
(the source first parses `pcm` into little-endian signed 16-bit samples;
the samples themselves are the codec's input). -/
def adpcm_encode (samples : List Int) (st : AdpcmState) : List Nat × AdpcmState :=
  adpcm_encode_loop samples st true 0

/-- The sequence of 4-bit codes `adpcm_encode` produces for a sample list. -/
def encCodes : List Int → AdpcmState → List Nat
  | [], _ => []
  | s :: rest, st =>
    let r := encodeSample st s
    r.1 :: encCodes rest r.2

/-- Packing of a code sequence two to a byte, first code of each pair in the
high nibble (`byte = (code & 0x0F) << 4`, then `out.append(byte | (code & 0x0F))`);
a trailing unpaired code is dropped, as `adpcm_encode` never appends it. -/
def packHL : List Nat → List Nat
  | c1 :: c2 :: r => (((c1 &&& 15) <<< 4) ||| (c2 &&& 15)) :: packHL r
  | _ => []

/-- States of the encoder after each processed sample. -/
def encStateTrace : List Int → AdpcmState → List AdpcmState
  | [], _ => []
  | s :: rest, st =>
    let st' := (encodeSample st s).2
    st' :: encStateTrace rest st'

/-- States of the decoder after each processed nibble. -/
def decStateTrace : List Nat → AdpcmState → List AdpcmState
  | [], _ => []
  | n :: rest, st =>
    let st' := (decodeNibble st n).2
    st' :: decStateTrace rest st'

/-- The codec-state invariant of the spec: `predictor ∈ [-32768, 32767]`,
`stepIndex ∈ [0, 88]`. -/
def validState (st : AdpcmState) : Prop :=
  -32768 ≤ st.1 ∧ st.1 ≤ 32767 ∧ 0 ≤ st.2 ∧ st.2 ≤ 88

instance (st : AdpcmState) : Decidable (validState st) := by
  unfold validState; infer_instance

/-- Final codec state after encoding a sample list (the `(predictor, index)`
pair `adpcm_encode` returns). -/
def encFinalState : List Int → AdpcmState → AdpcmState
  | [], st => st
  | s :: rest, st => encFinalState rest (encodeSample st s).2

/-- Final codec state after decoding a nibble list. -/
def decFinalState : List Nat → AdpcmState → AdpcmState
  | [], st => st
  | n :: rest, st => decFinalState rest (decodeNibble st n).2

/-! ## Codec lemmas -/

theorem encodeDiffMag_eq_decodeDiffMag (step c : Nat) :
    encodeDiffMag step c = decodeDiffMag step c := by
  unfold encodeDiffMag decodeDiffMag
  split_ifs <;> ring

theorem encodeUpdate_eq_decodeNibble (st : AdpcmState) (c : Nat) :
    encodeUpdate st c = (decodeNibble st c).2 := by
  simp only [encodeUpdate, decodeNibble]
  rw [encodeDiffMag_eq_decodeDiffMag]

theorem encodeCode_lt_16 (st : AdpcmState) (s : Int) : encodeCode st s < 16 := by
  simp only [encodeCode]
  split_ifs <;> decide

theorem encodeSample_state_lockstep (st : AdpcmState) (s : Int) :
    (decodeNibble st (encodeSample st s).1).2 = (encodeSample st s).2 := by
  simp [encodeSample, encodeUpdate_eq_decodeNibble]

theorem adpcm_decode_eq_decodeNibbles (bs : List Nat) (st : AdpcmState) :
    adpcm_decode bs st = decodeNibbles (bs.flatMap byteNibblesHL) st := by
  induction bs generalizing st with
  | nil => rfl
  | cons b bs ih =>
    simp only [adpcm_decode, List.flatMap_cons, byteNibblesHL, List.cons_append,
      List.nil_append, decodeNibbles]
    simp [ih, List.flatMap]

/-- Auxiliary packing state: the output of the encoder loop when a pending
high nibble `byte` is waiting for its partner. -/
def packLow (byte : Nat) : List Nat → List Nat
  | [] => []
  | c :: r => (byte ||| (c &&& 15)) :: packHL r

theorem packLow_shift (c : Nat) (cs : List Nat) :
    packLow ((c &&& 15) <<< 4) cs = packHL (c :: cs) := by
  cases cs <;> rfl

theorem adpcm_encode_loop_fst (l : List Int) : ∀ st,
    (∀ byte, (adpcm_encode_loop l st true byte).1 = packHL (encCodes l st))
    ∧ (∀ byte, (adpcm_encode_loop l st false byte).1 = packLow byte (encCodes l st)) := by
  induction l with
  | nil => intro st; exact ⟨fun _ => rfl, fun _ => rfl⟩
  | cons s rest ih =>
    intro st
    constructor
    · intro byte
      simp only [adpcm_encode_loop, if_true, encCodes]
      rw [(ih _).2, packLow_shift]
    · intro byte
      simp only [adpcm_encode_loop, Bool.false_eq_true, if_false, encCodes, packLow]
      rw [(ih _).1]

theorem adpcm_encode_fst (samples : List Int) (st : AdpcmState) :
    (adpcm_encode samples st).1 = packHL (encCodes samples st) :=
  (adpcm_encode_loop_fst samples st).1 0

theorem adpcm_encode_loop_snd (l : List Int) : ∀ st high byte,
    (adpcm_encode_loop l st high byte).2 = encFinalState l st := by
  induction l with
  | nil => intros; rfl
  | cons s rest ih =>
    intro st high byte
    cases high <;> simp [adpcm_encode_loop, encFinalState, ih]

theorem decodeNibbles_snd (ns : List Nat) : ∀ st,
    (decodeNibbles ns st).2 = decFinalState ns st := by
  induction ns with
  | nil => intro st; rfl
  | cons n rest ih => intro st; simp [decodeNibbles, decFinalState, ih]

theorem decTrace_encCodes (samples : List Int) : ∀ st,
    decStateTrace (encCodes samples st) st = encStateTrace samples st := by
  induction samples with
  | nil => intro st; rfl
  | cons s rest ih =>
    intro st
    simp only [encCodes, decStateTrace, encStateTrace, encodeSample_state_lockstep]
    rw [ih]

theorem decFinal_encCodes (samples : List Int) : ∀ st,
    decFinalState (encCodes samples st) st = encFinalState samples st := by
  induction samples with
  | nil => intro st; rfl
  | cons s rest ih =>
    intro st
    simp only [encCodes, decFinalState, encFinalState, encodeSample_state_lockstep]
    rw [ih]

theorem byteNibblesHL_pack (c1 c2 : Nat) (h1 : c1 < 16) (h2 : c2 < 16) :
    byteNibblesHL (((c1 &&& 15) <<< 4) ||| (c2 &&& 15)) = [c1, c2] := by
  interval_cases c1 <;> interval_cases c2 <;> decide

theorem packHL_flatMap (l : List Nat) (hlen : l.length % 2 = 0)
    (hlt : ∀ c ∈ l, c < 16) :
    (packHL l).flatMap byteNibblesHL = l := by
  induction l using packHL.induct with
  | case1 c1 c2 r ih =>
    simp only [packHL, List.flatMap_cons]
    rw [byteNibblesHL_pack c1 c2 (hlt c1 (by simp)) (hlt c2 (by simp)), ih]
    · rfl
    · simp at hlen; omega
    · intro c hc; exact hlt c (by simp [hc])
  | case2 l h =>
    match l, h with
    | [], _ => rfl
    | [c], h => simp at hlen
    | c1 :: c2 :: r, h => exact absurd rfl (h c1 c2 r)

theorem encCodes_lt_16 (samples : List Int) : ∀ st, ∀ c ∈ encCodes samples st, c < 16 := by
  induction samples with
  | nil => intro st c hc; simp [encCodes] at hc
  | cons s rest ih =>
    intro st c hc
    simp only [encCodes, List.mem_cons] at hc
    rcases hc with h | h
    · subst h; exact encodeCode_lt_16 st s
    · exact ih _ c h

theorem encCodes_length (samples : List Int) : ∀ st,
    (encCodes samples st).length = samples.length := by
  induction samples with
  | nil => intro st; rfl
  | cons s rest ih => intro st; simp [encCodes, ih]

theorem encCodes_take (samples : List Int) : ∀ st n,
    encCodes (samples.take n) st = (encCodes samples st).take n := by
  induction samples with
  | nil => intro st n; simp [encCodes]
  | cons s rest ih =>
    intro st n
    cases n with
    | zero => rfl
    | succ m => simp [encCodes, ih]

theorem packHL_single (c : Nat) : packHL [c] = [] := rfl

theorem packHL_length (l : List Nat) : (packHL l).length = l.length / 2 := by
  induction l using packHL.induct with
  | case1 c1 c2 r ih =>
    simp only [packHL, List.length_cons, ih]
    omega
  | case2 l h =>
    match l, h with
    | [], _ => rfl
    | [c], _ => simp [packHL_single]
    | c1 :: c2 :: r, h => exact absurd rfl (h c1 c2 r)

theorem packHL_odd (l : List Nat) (k : Nat) (h : l.length = 2 * k + 1) :
    packHL l = packHL (l.take (2 * k)) := by
  induction l using packHL.induct generalizing k with
  | case1 c1 c2 r ih =>
    have hk : 1 ≤ k := by simp at h; omega
    obtain ⟨k', rfl⟩ : ∃ k', k = k' + 1 := ⟨k - 1, by omega⟩
    have hr : r.length = 2 * k' + 1 := by simp at h; omega
    have : 2 * (k' + 1) = (2 * k' + 1) + 1 := by omega
    rw [this]
    simp only [List.take_succ_cons, packHL]
    rw [ih k' hr]
  | case2 l hl =>
    match l, hl with
    | [], _ => simp at h
    | [c], _ =>
      have hk : k = 0 := by simp at h; omega
      subst hk
      rfl
    | c1 :: c2 :: r, hl => exact absurd rfl (hl c1 c2 r)

theorem decodeNibble_valid (st : AdpcmState) (n : Nat) :
    validState (decodeNibble st n).2 := by
  simp only [decodeNibble, validState, clampPred, clampIndex]
  omega

theorem decStateTrace_valid (ns : List Nat) : ∀ st, ∀ s' ∈ decStateTrace ns st, validState s' := by
  induction ns with
  | nil => intro st s' h; simp [decStateTrace] at h
  | cons n rest ih =>
    intro st s' h
    simp only [decStateTrace, List.mem_cons] at h
    rcases h with h | h
    · subst h; exact decodeNibble_valid st n
    · exact ih _ s' h

theorem encStateTrace_valid (l : List Int) : ∀ st, ∀ s' ∈ encStateTrace l st, validState s' := by
  induction l with
  | nil => intro st s' h; simp [encStateTrace] at h
  | cons s rest ih =>
    intro st s' h
    simp only [encStateTrace, List.mem_cons] at h
    rcases h with h | h
    · subst h
      rw [← encodeSample_state_lockstep]
      exact decodeNibble_valid _ _
    · exact ih _ s' h

/-! ## Codec of `serverOLD.py` (`adpcm_bytes_to_pcm_int16`,
`adpcm_encode_pcm_int16_to_bytes`), modelled with `gain` fixed at its
default `1.0`, so `int(x * gain)` is the identity. -/

/-- The `if predictor > 32767 ... if predictor < -32768 ...` clamp of serverOLD. -/
def int16ClampIf (p : Int) : Int :=
  if p > 32767 then 32767 else if p < -32768 then -32768 else p

/-- The `if index < 0 ... if index > 88 ...` clamp of serverOLD. -/
def idxClampIf (i : Int) : Int :=
  if i < 0 then 0 else if i > 88 then 88 else i

/-- One nibble of `adpcm_bytes_to_pcm_int16`: `sign = nibble & 8`,
`delta = nibble & 7`, `diffq = step >> 3` plus the ladder terms, predictor
moved by `±diffq` and clamped, index moved by `index_table[nibble]` and
clamped.  The emitted sample is the clamped predictor (gain 1.0). -/
def old_decodeNibble (st : AdpcmState) (nibble : Nat) : Int × AdpcmState :=
  let step := stepOf st.2
  let diffq : Nat := step >>> 3
    + (if nibble &&& 7 &&& 4 ≠ 0 then step else 0)
    + (if nibble &&& 7 &&& 2 ≠ 0 then step >>> 1 else 0)
    + (if nibble &&& 7 &&& 1 ≠ 0 then step >>> 2 else 0)
  let predictor :=
    int16ClampIf (if nibble &&& 8 ≠ 0 then st.1 - (diffq : Int) else st.1 + (diffq : Int))
  let index := idxClampIf (st.2 + indexDelta nibble)
  (predictor, (predictor, index))

/-- The two nibbles of a byte in the order `adpcm_bytes_to_pcm_int16` visits
them (`for shift in (0, 4)`): low nibble `b & 0x0F` first, then high nibble
`(b >> 4) & 0x0F`. -/
def byteNibblesLH (b : Nat) : List Nat := [b &&& 15, (b >>> 4) &&& 15]

/-- serverOLD decoding from a flat nibble list. -/
def old_decodeNibbles : List Nat → AdpcmState → List Int × AdpcmState
  | [], st => ([], st)
  | n :: ns, st =>
    let r := old_decodeNibble st n
    let rest := old_decodeNibbles ns r.2
    (r.1 :: rest.1, rest.2)

/-- The per-byte loop of `adpcm_bytes_to_pcm_int16`: shift 0, then shift 4. -/
def old_decodeBytes : List Nat → AdpcmState → List Int × AdpcmState
  | [], st => ([], st)
  | b :: bs, st =>
    let r1 := old_decodeNibble st (b &&& 15)
    let r2 := old_decodeNibble r1.2 ((b >>> 4) &&& 15)
    let rest := old_decodeBytes bs r2.2
    (r1.1 :: r2.1 :: rest.1, rest.2)

/-- `adpcm_bytes_to_pcm_int16(adpcm_bytes, state)` of `serverOLD.py`
(gain 1.0): the entry code clamps the index into [0, 88], then each byte is
processed low nibble first. -/
def adpcm_bytes_to_pcm_int16 (bs : List Nat) (st : AdpcmState) : List Int × AdpcmState :=
  old_decodeBytes bs (st.1, idxClampIf st.2)

/-- The 4-bit nibble (`delta | sign`) built by the quantization ladder of
`adpcm_encode_pcm_int16_to_bytes`. -/
def old_encodeCode (st : AdpcmState) (s : Int) : Nat :=
  let step := stepOf st.2
  let diff0 := s - st.1
  let sign : Nat := if diff0 < 0 then 8 else 0
  let diff1 := if diff0 < 0 then -diff0 else diff0
  let delta1 : Nat := if diff1 ≥ (step : Int) then 4 else 0
  let diff2 := if diff1 ≥ (step : Int) then diff1 - step else diff1
  let step1 := step >>> 1
  let delta2 := if diff2 ≥ (step1 : Int) then delta1 ||| 2 else delta1
  let diff3 := if diff2 ≥ (step1 : Int) then diff2 - step1 else diff2
  let step2 := step1 >>> 1
  let delta3 := if diff3 ≥ (step2 : Int) then delta2 ||| 1 else delta2
  delta3 ||| sign

/-- The state update of `adpcm_encode_pcm_int16_to_bytes` after building the
nibble: recomputed quantized delta, `±` by the sign bit, if-style clamps. -/
def old_encodeUpdate (st : AdpcmState) (nibble : Nat) : AdpcmState :=
  let step := stepOf st.2
  let diffq : Nat := step >>> 3
    + (if nibble &&& 4 ≠ 0 then step else 0)
    + (if nibble &&& 2 ≠ 0 then step >>> 1 else 0)
    + (if nibble &&& 1 ≠ 0 then step >>> 2 else 0)
  let predictor :=
    int16ClampIf (if nibble &&& 8 ≠ 0 then st.1 - (diffq : Int) else st.1 + (diffq : Int))
  (predictor, idxClampIf (st.2 + indexDelta nibble))

/-- One sample of `adpcm_encode_pcm_int16_to_bytes` (gain 1.0): the input
sample is clamped to int16 first (`if s > 32767 ...`). -/
def old_encodeSample (st : AdpcmState) (s0 : Int) : Nat × AdpcmState :=
  let n := old_encodeCode st (int16ClampIf s0)
  (n, old_encodeUpdate st n)

/-- The nibble sequence `adpcm_encode_pcm_int16_to_bytes` produces. -/
def old_encCodes : List Int → AdpcmState → List Nat
  | [], _ => []
  | s :: rest, st =>
    let r := old_encodeSample st s
    r.1 :: old_encCodes rest r.2

/-- The per-sample loop of `adpcm_encode_pcm_int16_to_bytes`, threading the
`high_nibble` flag (`pending`: a low nibble is waiting for its partner) and
the pending `out_byte`; a trailing unpaired nibble is flushed at the end
(`if high_nibble: out_bytes.append(out_byte & 0xFF)`). -/
def old_encode_loop : List Int → AdpcmState → Bool → Nat → List Nat × AdpcmState
  | [], st, pending, byte => (if pending then [byte &&& 255] else [], st)
  | s :: rest, st, pending, byte =>
    let r := old_encodeSample st s
    if pending then
      let out := old_encode_loop rest r.2 false byte
      (((byte ||| ((r.1 &&& 15) <<< 4)) &&& 255) :: out.1, out.2)
    else
      old_encode_loop rest r.2 true (r.1 &&& 15)

/-- `adpcm_encode_pcm_int16_to_bytes(pcm_int16, state)` of `serverOLD.py`
(gain 1.0): entry clamps the index, the first nibble of each pair goes into
the LOW bits of the output byte. -/
def adpcm_encode_pcm_int16_to_bytes (samples : List Int) (st : AdpcmState) :
    List Nat × AdpcmState :=
  old_encode_loop samples (st.1, idxClampIf st.2) false 0

/-- Packing of a nibble sequence two to a byte, first nibble of each pair
in the LOW bits, a trailing unpaired nibble flushed as its own byte. -/
def packLH : List Nat → List Nat
  | c1 :: c2 :: r => (((c1 &&& 15) ||| ((c2 &&& 15) <<< 4)) &&& 255) :: packLH r
  | [c] => [(c &&& 15) &&& 255]
  | [] => []

/-- Auxiliary: output of the serverOLD encoder loop with a pending low nibble. -/
def packLowOld (byte : Nat) : List Nat → List Nat
  | [] => [byte &&& 255]
  | c :: r => ((byte ||| ((c &&& 15) <<< 4)) &&& 255) :: packLH r

theorem packLowOld_shift (c : Nat) (cs : List Nat) :
    packLowOld (c &&& 15) cs = packLH (c :: cs) := by
  cases cs <;> rfl

theorem old_encode_loop_fst (l : List Int) : ∀ st,
    (∀ byte, (old_encode_loop l st false byte).1 = packLH (old_encCodes l st))
    ∧ (∀ byte, (old_encode_loop l st true byte).1 = packLowOld byte (old_encCodes l st)) := by
  induction l with
  | nil => intro st; exact ⟨fun _ => rfl, fun _ => rfl⟩
  | cons s rest ih =>
    intro st
    constructor
    · intro byte
      simp only [old_encode_loop, Bool.false_eq_true, if_false, old_encCodes]
      rw [(ih _).2, packLowOld_shift]
    · intro byte
      simp only [old_encode_loop, if_true, old_encCodes, packLowOld]
      rw [(ih _).1]

theorem old_decodeBytes_eq_nibbles (bs : List Nat) : ∀ st,
    old_decodeBytes bs st = old_decodeNibbles (bs.flatMap byteNibblesLH) st := by
  induction bs with
  | nil => intro st; rfl
  | cons b bs ih =>
    intro st
    simp only [old_decodeBytes, List.flatMap_cons, byteNibblesLH, List.cons_append,
      List.nil_append, old_decodeNibbles]
    simp [ih, List.flatMap]

/-! ## Claims about the codec -/

/-- C2 counterexample: the claim asserts that the repository's decoders
process the high nibble (bits 7-4) of each byte before the low nibble, citing
both `dummy_server.adpcm_decode` and `serverOLD.adpcm_bytes_to_pcm_int16`.
The serverOLD decoder (`for shift in (0, 4)`) processes the LOW nibble
first: decoding the single byte `0x04` from the fresh state gives the
samples of the low-first nibble order `[4, 0]`, and differs from what
high-nibble-first processing `[0, 4]` would give. -/
theorem C2_nibble_order_counterexample :
    (adpcm_bytes_to_pcm_int16 [4] (0, 0)).1 = (old_decodeNibbles (byteNibblesLH 4) (0, 0)).1
    ∧ (adpcm_bytes_to_pcm_int16 [4] (0, 0)).1 = [7, 8]
    ∧ (old_decodeNibbles (byteNibblesHL 4) (0, 0)).1 = [0, 7]
    ∧ (adpcm_bytes_to_pcm_int16 [4] (0, 0)).1 ≠ (old_decodeNibbles (byteNibblesHL 4) (0, 0)).1 := by
  decide

/-- C2 amended: the `dummy_server` codec processes the high nibble of each
byte before the low nibble and its encoder packs the first code of each pair
into the high nibble, while the `serverOLD` codec processes the low nibble
first and its encoder packs the first nibble of each pair into the low bits;
in each implementation the encoder's packing order mirrors that same
implementation's unpacking order. -/
theorem C2_nibble_order_amended (bs : List Nat) (samples : List Int) (st : AdpcmState) :
    adpcm_decode bs st = decodeNibbles (bs.flatMap byteNibblesHL) st
    ∧ (adpcm_encode samples st).1 = packHL (encCodes samples st)
    ∧ adpcm_bytes_to_pcm_int16 bs st
      = old_decodeNibbles (bs.flatMap byteNibblesLH) (st.1, idxClampIf st.2)
    ∧ (adpcm_encode_pcm_int16_to_bytes samples st).1
      = packLH (old_encCodes samples (st.1, idxClampIf st.2)) :=
  ⟨adpcm_decode_eq_decodeNibbles bs st,
   adpcm_encode_fst samples st,
   old_decodeBytes_eq_nibbles bs _,
   (old_encode_loop_fst samples _).1 0⟩

/-- C3: for every even-length sample sequence and every starting state with
predictor in [-32768, 32767] and index in [0, 88], encoding the samples and
decoding the produced bytes from the same starting state keep encoder and
decoder in lockstep: the decoder's state after each nibble (one nibble per
sample) equals the encoder's state after the corresponding sample, and the
two final states are equal. -/
theorem C3_encode_decode_lockstep (samples : List Int) (st : AdpcmState) (k : Nat)
    (hlen : samples.length = 2 * k) (hst : validState st) :
    decStateTrace ((adpcm_encode samples st).1.flatMap byteNibblesHL) st
      = encStateTrace samples st
    ∧ (adpcm_decode (adpcm_encode samples st).1 st).2 = (adpcm_encode samples st).2 := by
  have hpack : (adpcm_encode samples st).1 = packHL (encCodes samples st) :=
    adpcm_encode_fst samples st
  have hun : (packHL (encCodes samples st)).flatMap byteNibblesHL = encCodes samples st :=
    packHL_flatMap _ (by rw [encCodes_length]; omega) (encCodes_lt_16 _ _)
  constructor
  · rw [hpack, hun, decTrace_encCodes]
  · rw [adpcm_decode_eq_decodeNibbles, hpack, hun, decodeNibbles_snd, decFinal_encCodes,
      adpcm_encode, adpcm_encode_loop_snd]

theorem C3_encode_decode_lockstep_witness :
    (([100, -200, 300, 5] : List Int).length = 2 * 2 ∧ validState (0, 0))
    ∧ (decStateTrace ((adpcm_encode [100, -200, 300, 5] (0, 0)).1.flatMap byteNibblesHL) (0, 0)
        = encStateTrace [100, -200, 300, 5] (0, 0)
      ∧ (adpcm_decode (adpcm_encode [100, -200, 300, 5] (0, 0)).1 (0, 0)).2
        = (adpcm_encode [100, -200, 300, 5] (0, 0)).2) :=
  ⟨⟨by decide, by decide⟩,
   C3_encode_decode_lockstep [100, -200, 300, 5] (0, 0) 2 (by decide) (by decide)⟩

/-- C4: for every sequence of input nibbles and every starting state with
predictor in [-32768, 32767] and index in [0, 88], the state after each
nibble processed by decode and after each sample processed by encode
satisfies predictor ∈ [-32768, 32767] and stepIndex ∈ [0, 88]. -/
theorem C4_state_bounds (nibbles : List Nat) (samples : List Int) (st : AdpcmState)
    (hst : validState st) :
    (∀ s' ∈ decStateTrace nibbles st, validState s')
    ∧ (∀ s' ∈ encStateTrace samples st, validState s') :=
  ⟨decStateTrace_valid nibbles st, encStateTrace_valid samples st⟩

theorem C4_state_bounds_witness :
    validState (0, 0)
    ∧ ((∀ s' ∈ decStateTrace [0, 5, 15, 8] (0, 0), validState s')
      ∧ (∀ s' ∈ encStateTrace [100, -200, 30000] (0, 0), validState s')) :=
  ⟨by decide, C4_state_bounds [0, 5, 15, 8] [100, -200, 30000] (0, 0) (by decide)⟩

/-- C10: for a PCM input of an odd number 2k+1 of samples, `adpcm_encode`
returns exactly k output bytes, those bytes are exactly the bytes produced
by the first 2k samples (the final sample's code is computed but never
emitted), while the returned state has been updated by all 2k+1 samples. -/
theorem C10_odd_sample_truncation (samples : List Int) (st : AdpcmState) (k : Nat)
    (hlen : samples.length = 2 * k + 1) :
    (adpcm_encode samples st).1.length = k
    ∧ (adpcm_encode samples st).1 = (adpcm_encode (samples.take (2 * k)) st).1
    ∧ (adpcm_encode samples st).2 = encFinalState samples st := by
  refine ⟨?_, ?_, ?_⟩
  · rw [adpcm_encode_fst, packHL_length, encCodes_length, hlen]
    omega
  · rw [adpcm_encode_fst, adpcm_encode_fst, encCodes_take]
    exact packHL_odd _ k (by rw [encCodes_length, hlen])
  · exact adpcm_encode_loop_snd samples st true 0

theorem C10_odd_sample_truncation_witness :
    (([100, -200, 300] : List Int).length = 2 * 1 + 1)
    ∧ ((adpcm_encode [100, -200, 300] (0, 0)).1.length = 1
      ∧ (adpcm_encode [100, -200, 300] (0, 0)).1
        = (adpcm_encode (([100, -200, 300] : List Int).take (2 * 1)) (0, 0)).1
      ∧ (adpcm_encode [100, -200, 300] (0, 0)).2 = encFinalState [100, -200, 300] (0, 0)) :=
  ⟨by decide, C10_odd_sample_truncation [100, -200, 300] (0, 0) 1 (by decide)⟩

/-! ## Session controller of `dummy_server.py` (`websocket_endpoint` and
`send_wav`), at the granularity of one message per scheduler step.

The per-connection handler keeps `recording`, the utterance buffer
`pcm_buf`, and `current_tts_task`.  A `send_wav` task sends, with an await
point between any two of them, `PROCESSING_START`, the text `"01"`,
`SPEAK_START`, one binary frame per block of the reply file, and finally
`TTS_END`; cancellation is delivered at await points, so a cancelled task
sends nothing further.  `START` cancels `current_tts_task` when it is not
done, clears the buffer and starts recording; `END` stops recording and,
when the buffer is non-empty, spawns a new `send_wav` task, overwriting
`current_tts_task` WITHOUT cancelling the previous task (and without
clearing `pcm_buf`).  The audio-decoding state `rx_state` is not modelled;
no claim refers to it. -/

/-- Messages a `send_wav` task sends, tagged by block index. -/
inductive SrvMsg
  | processingStart
  | text01
  | speakStart
  | audioBlock (i : Nat)
  | ttsEnd
deriving DecidableEq

/-- The full message sequence of one `send_wav` run to natural completion,
for a reply file of `nB` audio blocks. -/
def mkScript (nB : Nat) : List SrvMsg :=
  SrvMsg.processingStart :: SrvMsg.text01 :: SrvMsg.speakStart ::
    ((List.range nB).map SrvMsg.audioBlock ++ [SrvMsg.ttsEnd])

/-- Handler state: `recording`, emptiness of `pcm_buf`, a fresh-task-id
counter, the identity of `current_tts_task`, and the set of live `send_wav`
tasks with their remaining (unsent) messages. -/
structure Sess where
  recording : Bool
  bufEmpty : Bool
  nextId : Nat
  tracked : Option Nat
  tasks : List (Nat × List SrvMsg)
deriving DecidableEq

/-- Scheduler-visible events: the handler receives `START`, `END` or an
audio frame, or a live `send_wav` task with the given id sends its next
message. -/
inductive Ev
  | recvStart
  | recvEnd
  | recvAudio
  | tick (id : Nat)
deriving DecidableEq

/-- State of a freshly accepted connection. -/
def sessInit : Sess := ⟨false, true, 0, none, []⟩

/-- One step of the interleaved handler/task system.  Returns the new state
and the messages (tagged with the sending task's id) sent during the step. -/
def sessStep (nB : Nat) (s : Sess) : Ev → Sess × List (Nat × SrvMsg)
  | .recvStart =>
    ({ s with tasks := s.tasks.filter (fun t => some t.1 ≠ s.tracked),
              tracked := none, bufEmpty := true, recording := true }, [])
  | .recvEnd =>
    if s.bufEmpty then
      ({ s with recording := false }, [])
    else
      ({ s with recording := false, tracked := some s.nextId,
                nextId := s.nextId + 1,
                tasks := s.tasks ++ [(s.nextId, mkScript nB)] }, [])
  | .recvAudio =>
    if s.recording then ({ s with bufEmpty := false }, []) else (s, [])
  | .tick k =>
    match s.tasks.find? (fun t => t.1 == k) with
    | some (_, m :: _) =>
      ({ s with tasks := s.tasks.map (fun t => if t.1 = k then (t.1, t.2.tail) else t) },
       [(k, m)])
    | _ => (s, [])

/-- Run of the system on an event sequence, collecting all sent messages. -/
def runSess (nB : Nat) : Sess → List Ev → Sess × List (Nat × SrvMsg)
  | s, [] => (s, [])
  | s, e :: es =>
    let r := sessStep nB s e
    let rest := runSess nB r.1 es
    (rest.1, r.2 ++ rest.2)


/-- One step of the session system preserves "id `k` is dead": the task set
avoids `k`, `k` is below the fresh-id counter, every live id is below the
counter, and the step emits nothing tagged `k`. -/
theorem sessStep_avoids (nB k : Nat) (s : Sess) (e : Ev)
    (hne : ∀ t ∈ s.tasks, t.1 ≠ k) (hlt : k < s.nextId)
    (hwf : ∀ t ∈ s.tasks, t.1 < s.nextId) :
    (∀ t ∈ (sessStep nB s e).1.tasks, t.1 ≠ k)
    ∧ k < (sessStep nB s e).1.nextId
    ∧ (∀ t ∈ (sessStep nB s e).1.tasks, t.1 < (sessStep nB s e).1.nextId)
    ∧ ∀ m, (k, m) ∉ (sessStep nB s e).2 := by
  cases e with
  | recvStart =>
    simp only [sessStep]
    exact ⟨fun t ht => hne t (List.mem_of_mem_filter ht), hlt,
      fun t ht => hwf t (List.mem_of_mem_filter ht), by simp⟩
  | recvEnd =>
    cases hb : s.bufEmpty with
    | true =>
      simp only [sessStep, hb, if_true]
      exact ⟨hne, hlt, hwf, by simp⟩
    | false =>
      simp only [sessStep, hb, Bool.false_eq_true, if_false]
      refine ⟨?_, by omega, ?_, by simp⟩
      · intro t ht
        rcases List.mem_append.1 ht with h | h
        · exact hne t h
        · simp only [List.mem_singleton] at h
          subst h
          omega
      · intro t ht
        rcases List.mem_append.1 ht with h | h
        · have := hwf t h
          omega
        · simp only [List.mem_singleton] at h
          subst h
          simp
  | recvAudio =>
    cases hr : s.recording with
    | true =>
      simp only [sessStep, hr, if_true]
      exact ⟨hne, hlt, hwf, by simp⟩
    | false =>
      simp only [sessStep, hr, Bool.false_eq_true, if_false]
      exact ⟨hne, hlt, hwf, by simp⟩
  | tick j =>
    rcases hfind : s.tasks.find? (fun t => t.1 == j) with _ | ⟨j', rem⟩
    · simp only [sessStep, hfind]
      exact ⟨hne, hlt, hwf, by simp⟩
    · cases rem with
      | nil =>
        simp only [sessStep, hfind]
        exact ⟨hne, hlt, hwf, by simp⟩
      | cons m' r =>
        simp only [sessStep, hfind]
        have hj : j' = j := by simpa using List.find?_some hfind
        have hmem : (j', m' :: r) ∈ s.tasks := List.mem_of_find?_eq_some hfind
        have hjk : j ≠ k := by
          intro h
          exact hne _ hmem (by simp [hj, h])
        refine ⟨?_, hlt, ?_, ?_⟩
        · intro t ht
          simp only [List.mem_map] at ht
          obtain ⟨t0, ht0, rfl⟩ := ht
          by_cases hij : t0.1 = j
          · simpa [hij] using hjk
          · simpa [hij] using hne t0 ht0
        · intro t ht
          simp only [List.mem_map] at ht
          obtain ⟨t0, ht0, rfl⟩ := ht
          by_cases hij : t0.1 = j
          · simpa [hij, ← hj] using hwf t0 ht0
          · simpa [hij] using hwf t0 ht0
        · intro m hm
          simp only [List.mem_singleton, Prod.mk.injEq] at hm
          exact hjk hm.1.symm

/-! ## Session lemmas and claims -/

/-- Once task id `k` is gone from the task set and below the fresh-id
counter, no run ever emits a message tagged `k` again. -/
theorem runSess_no_tagged_emission (nB k : Nat) (evs : List Ev) : ∀ s : Sess,
    (∀ t ∈ s.tasks, t.1 ≠ k) → k < s.nextId → (∀ t ∈ s.tasks, t.1 < s.nextId) →
    ∀ m, (k, m) ∉ (runSess nB s evs).2 := by
  induction evs with
  | nil => intro s _ _ _ m h; simp [runSess] at h
  | cons e es ih =>
    intro s hne hlt hwf m
    obtain ⟨h1, h2, h3, h4⟩ := sessStep_avoids nB k s e hne hlt hwf
    simp only [runSess, List.mem_append, not_or]
    exact ⟨h4 m, ih _ h1 h2 h3 m⟩

/-- C5 counterexample: the claim requires that whenever `START` arrives
while a previous response stream is still active, that stream is cancelled
and its `TTS_END` is never sent.  After `START, audio, END, END` (the `END`
branch never clears `pcm_buf`, so a second `END` spawns a second `send_wav`
task without cancelling the first), stream 0 is still active — it has sent
nothing — and `current_tts_task` tracks stream 1.  The following `START`
cancels only stream 1; orphaned stream 0 keeps running and its terminal
`TTS_END` is sent after that `START`. -/
theorem C5_cancel_counterexample :
    (runSess 1 sessInit [Ev.recvStart, Ev.recvAudio, Ev.recvEnd, Ev.recvEnd]).1.tasks
      = [(0, mkScript 1), (1, mkScript 1)]
    ∧ (runSess 1 sessInit [Ev.recvStart, Ev.recvAudio, Ev.recvEnd, Ev.recvEnd]).1.tracked
      = some 1
    ∧ (0, SrvMsg.ttsEnd) ∈
        (runSess 1 (runSess 1 sessInit [Ev.recvStart, Ev.recvAudio, Ev.recvEnd, Ev.recvEnd]).1
          [Ev.recvStart, Ev.tick 0, Ev.tick 0, Ev.tick 0, Ev.tick 0, Ev.tick 0]).2 := by
  decide

/-- C5 amended: a `START` signal cancels the TRACKED (most recently
spawned) response stream: when `current_tts_task` is stream `k`, which is
still live and has not yet sent its terminal `TTS_END`, then after the
`START` step the task set no longer contains `k`, and no message tagged `k`
— no audio block and in particular no `TTS_END` — is ever sent in any
continuation of the run.  (An orphaned stream left behind by a second `END`
on a stale non-empty buffer is not covered: see the counterexample.) -/
theorem C5_start_cancels_tracked_stream (nB : Nat) (s : Sess) (evs : List Ev)
    (k : Nat) (rem : List SrvMsg)
    (hwf : ∀ t ∈ s.tasks, t.1 < s.nextId)
    (htr : s.tracked = some k)
    (hactive : (k, rem) ∈ s.tasks)
    (hterm : SrvMsg.ttsEnd ∈ rem) :
    (∀ t ∈ (sessStep nB s Ev.recvStart).1.tasks, t.1 ≠ k)
    ∧ ∀ m, (k, m) ∉ (runSess nB (sessStep nB s Ev.recvStart).1 evs).2 := by
  have hk : k < s.nextId := hwf _ hactive
  have hne : ∀ t ∈ (sessStep nB s Ev.recvStart).1.tasks, t.1 ≠ k := by
    intro t ht
    simp only [sessStep, List.mem_filter, htr, decide_eq_true_eq] at ht
    exact fun hc => ht.2 (by rw [hc])
  refine ⟨hne, ?_⟩
  apply runSess_no_tagged_emission
  · exact hne
  · simpa [sessStep] using hk
  · intro t ht
    simp only [sessStep, List.mem_filter] at ht
    simpa [sessStep] using hwf t ht.1

theorem C5_start_cancels_tracked_stream_witness :
    (0, SrvMsg.ttsEnd) ∉
      (runSess 1 (sessStep 1 ⟨false, false, 1, some 0, [(0, mkScript 1)]⟩ Ev.recvStart).1
        [Ev.tick 0]).2 :=
  (C5_start_cancels_tracked_stream 1 ⟨false, false, 1, some 0, [(0, mkScript 1)]⟩ [Ev.tick 0]
    0 (mkScript 1) (by decide) rfl (by decide) (by decide)).2 SrvMsg.ttsEnd

/-- C6: an `END` signal arriving while the accumulated utterance is empty
is a no-op apart from stopping recording: no processing or playback task is
started, nothing (in particular no `PROCESSING_START`) is sent, and the
controller state is unchanged except `recording := false`. -/
theorem C6_empty_end_noop (nB : Nat) (s : Sess) (h : s.bufEmpty = true) :
    sessStep nB s Ev.recvEnd = ({ s with recording := false }, []) := by
  simp [sessStep, h]

theorem C6_empty_end_noop_witness :
    sessInit.bufEmpty = true
    ∧ sessStep 3 sessInit Ev.recvEnd = ({ sessInit with recording := false }, []) :=
  ⟨rfl, C6_empty_end_noop 3 sessInit rfl⟩


/-! ## OTA transfer coordinator of `dummy_server_cmd.py`
(`handle_ota_command`, `wait_for_ack`, `handle_ota_ack`).

The device's behaviour during the transfer is an oracle: one entry of
`acks` per executed wait, `some m` meaning the first ACK/NACK processed by
`handle_ota_ack` after the wait's `clear()` (the event wakes the waiter),
`none` meaning the 5-second `asyncio.TimeoutError` fired first.  Sends are
events; `ws.send` transport failures, the checksum resolution
(`read_checksum`) and the CRC32 field of the chunk header are not modelled —
no claim refers to them. -/

/-- `OTA_CHUNK_SIZE = 2048`. -/
def OTA_CHUNK_SIZE : Nat := 2048

/-- `OTA_MAX_RETRIES = 3` (attempts per chunk, `for retry in range(...)`). -/
def OTA_MAX_RETRIES : Nat := 3

/-- The globals `ota_last_ack_seq` / `ota_last_nack_seq` (initially -1). -/
structure AckState where
  lastAck : Int
  lastNack : Int
deriving DecidableEq

/-- A device message `{"ota_ack": seq}` or `{"ota_nack": seq}`. -/
inductive AckMsg
  | ack (seq : Int)
  | nack (seq : Int)
deriving DecidableEq

/-- The seq carried by an ACK/NACK message. -/
def seqOfAck : AckMsg → Int
  | .ack n => n
  | .nack n => n

/-- `handle_ota_ack(msg)`: record the seq and set the event. -/
def handle_ota_ack (st : AckState) : AckMsg → AckState
  | .ack n => { st with lastAck := n }
  | .nack n => { st with lastNack := n }

/-- `wait_for_ack(expected_seq)`: clear the event, block until it is set or
the timeout fires, then test `ota_last_ack_seq == expected_seq`, else
`ota_last_nack_seq == expected_seq`, else log "Unexpected ACK seq" and
return False.  One wait consumes at most one arrival; `none` is a timeout. -/
def wait_for_ack (expected : Int) (st : AckState) : Option AckMsg → Bool × AckState
  | none => (false, st)
  | some m =>
    let st' := handle_ota_ack st m
    if st'.lastAck = expected then (true, st')
    else if st'.lastNack = expected then (false, st')
    else (false, st')

/-- Modelled from the spec: "An acknowledgement/negative-acknowledgement for
any other seq is logged and does not satisfy the current wait" — a wait that
skips over messages carrying other seqs and concludes only on an ACK (true)
or NACK (false) for the awaited seq, or on running out of arrivals
(timeout, false).  This is the behaviour the claim ascribes to
`wait_for_ack`; it is compared against the code model above. -/
def wait_for_ack_spec (expected : Int) : List AckMsg → Bool
  | [] => false
  | .ack n :: rest => if n = expected then true else wait_for_ack_spec expected rest
  | .nack n :: rest => if n = expected then false else wait_for_ack_spec expected rest

/-- Coordinator-visible send events of one OTA transfer. -/
inductive OtaEv
  | reqSent (size totalChunks : Nat)
  | chunkSent (seq : Nat) (payload : List Nat)
  | complete
deriving DecidableEq

/-- The `f.read(OTA_CHUNK_SIZE)` loop, fuelled by the remaining length so
that the recursion is structural: successive payloads of the firmware. -/
def chunksOfAux : Nat → List Nat → List (List Nat)
  | _, [] => []
  | 0, _ :: _ => []
  | fuel + 1, a :: l =>
    ((a :: l).take OTA_CHUNK_SIZE) :: chunksOfAux fuel ((a :: l).drop OTA_CHUNK_SIZE)

/-- The chunk payloads of a firmware image, in the order they are read. -/
def chunksOf (fw : List Nat) : List (List Nat) := chunksOfAux fw.length fw

/-- `total_chunks = (size + OTA_CHUNK_SIZE - 1) // OTA_CHUNK_SIZE`. -/
def otaTotalChunks (size : Nat) : Nat := (size + OTA_CHUNK_SIZE - 1) / OTA_CHUNK_SIZE

/-- Result of the per-chunk retry loop: success flag, ack state, unconsumed
arrival oracle, emitted events. -/
structure ChunkRes where
  success : Bool
  ackSt : AckState
  acksRest : List (Option AckMsg)
  events : List OtaEv
deriving DecidableEq

/-- The `for retry in range(OTA_MAX_RETRIES)` loop of one chunk: send the
chunk, wait for its ACK; break on success, otherwise resend, bounded by the
number of attempts.  Each executed wait consumes one oracle entry. -/
def sendChunkAttempts (seq : Nat) (payload : List Nat) :
    AckState → List (Option AckMsg) → Nat → ChunkRes
  | st, acks, 0 => ⟨false, st, acks, []⟩
  | st, acks, n + 1 =>
    let r := wait_for_ack (seq : Int) st (acks.headD none)
    if r.1 then ⟨true, r.2, acks.tail, [OtaEv.chunkSent seq payload]⟩
    else
      let rest := sendChunkAttempts seq payload r.2 acks.tail n
      ⟨rest.success, rest.ackSt, rest.acksRest, OtaEv.chunkSent seq payload :: rest.events⟩

/-- Aggregate result of a transfer: `sent` bytes attempted, chunks that
exhausted their retries, final ack state, emitted events. -/
structure OtaRun where
  sent : Nat
  failedChunks : Nat
  ackSt : AckState
  events : List OtaEv
deriving DecidableEq

/-- The `while True` chunk loop of `handle_ota_command`: one retry loop per
payload, `seq` incremented per chunk, `sent` increased by the payload length
whether or not the chunk was acknowledged. -/
def otaLoop : List (List Nat) → Nat → AckState → List (Option AckMsg) → OtaRun
  | [], _, st, _ => ⟨0, 0, st, []⟩
  | p :: ps, seq, st, acks =>
    let r := sendChunkAttempts seq p st acks OTA_MAX_RETRIES
    let rest := otaLoop ps (seq + 1) r.ackSt r.acksRest
    ⟨p.length + rest.sent, (if r.success then 0 else 1) + rest.failedChunks,
     rest.ackSt, r.events ++ rest.events⟩

/-- `handle_ota_command(ws, bin_path, checksum_hint)` over the firmware
image bytes: compute `total_chunks`, send the `request_ota` descriptor,
reset the ack state to (-1, -1), stream all chunks with per-chunk retries
starting at seq 0, then send `OTA_COMPLETE`.  There is no wait of any kind
between the request and the first chunk. -/
def handle_ota_command (fw : List Nat) (acks : List (Option AckMsg)) : OtaRun :=
  let size := fw.length
  let total := otaTotalChunks size
  let r := otaLoop (chunksOf fw) 0 ⟨-1, -1⟩ acks
  ⟨r.sent, r.failedChunks, r.ackSt, OtaEv.reqSent size total :: r.events ++ [OtaEv.complete]⟩

/-- The seq of a chunk-send event. -/
def seqOfEv : OtaEv → Option Nat
  | .chunkSent s _ => some s
  | _ => none

/-- The seqs of all chunk sends of an event trace, in send order. -/
def chunkSeqs (evs : List OtaEv) : List Nat := evs.filterMap seqOfEv

/-! ## OTA lemmas and claims -/

theorem chunksOfAux_congr : ∀ (f1 : Nat) (l : List Nat) (f2 : Nat),
    l.length ≤ f1 → l.length ≤ f2 → chunksOfAux f1 l = chunksOfAux f2 l := by
  intro f1
  induction f1 with
  | zero =>
    intro l f2 h1 h2
    cases l with
    | nil => cases f2 <;> rfl
    | cons a l => simp at h1
  | succ f ih =>
    intro l f2 h1 h2
    cases l with
    | nil => cases f2 <;> rfl
    | cons a l =>
      cases f2 with
      | zero => simp at h2
      | succ g =>
        show _ :: chunksOfAux f _ = _ :: chunksOfAux g _
        have hd : ((a :: l).drop OTA_CHUNK_SIZE).length = (a :: l).length - OTA_CHUNK_SIZE :=
          List.length_drop _ _
        have hlen : (a :: l).length = l.length + 1 := rfl
        rw [ih ((a :: l).drop OTA_CHUNK_SIZE) g ?_ ?_]
        · simp only [hd, hlen, OTA_CHUNK_SIZE] at *
          omega
        · simp only [hd, hlen, OTA_CHUNK_SIZE] at *
          omega

theorem chunksOf_nil : chunksOf [] = [] := rfl

theorem chunksOf_cons (a : Nat) (l : List Nat) :
    chunksOf (a :: l)
      = ((a :: l).take OTA_CHUNK_SIZE) :: chunksOf ((a :: l).drop OTA_CHUNK_SIZE) := by
  have hle : ((a :: l).drop OTA_CHUNK_SIZE).length ≤ l.length := by
    rw [List.length_drop]
    simp only [List.length_cons, OTA_CHUNK_SIZE]
    omega
  show ((a :: l).take OTA_CHUNK_SIZE) :: chunksOfAux l.length ((a :: l).drop OTA_CHUNK_SIZE)
      = ((a :: l).take OTA_CHUNK_SIZE) :: chunksOf ((a :: l).drop OTA_CHUNK_SIZE)
  rw [chunksOfAux_congr l.length _ ((a :: l).drop OTA_CHUNK_SIZE).length hle le_rfl]
  rfl

theorem otaTotalChunks_pos (n : Nat) (h : 1 ≤ n) : 1 ≤ otaTotalChunks n := by
  unfold otaTotalChunks OTA_CHUNK_SIZE
  omega

theorem chunksOf_map_length_aux (n : Nat) : ∀ (fw : List Nat), fw.length ≤ n → fw ≠ [] →
    (chunksOf fw).map List.length
      = List.replicate (otaTotalChunks fw.length - 1) OTA_CHUNK_SIZE
        ++ [fw.length - (otaTotalChunks fw.length - 1) * OTA_CHUNK_SIZE] := by
  induction n with
  | zero =>
    intro fw h hne
    cases fw with
    | nil => exact absurd rfl hne
    | cons a l => simp at h
  | succ m ih =>
    intro fw h hne
    cases fw with
    | nil => exact absurd rfl hne
    | cons a l =>
      rw [chunksOf_cons]
      by_cases hlen : (a :: l).length ≤ OTA_CHUNK_SIZE
      · have hdrop : (a :: l).drop OTA_CHUNK_SIZE = [] := by
          rw [List.drop_eq_nil_iff]
          exact hlen
        rw [hdrop, chunksOf_nil]
        have ht : otaTotalChunks (a :: l).length = 1 := by
          simp only [OTA_CHUNK_SIZE] at hlen
          simp only [otaTotalChunks, OTA_CHUNK_SIZE]
          simp only [List.length_cons] at hlen ⊢
          omega
        rw [ht]
        simp only [List.map_cons, List.map_nil, List.length_take, Nat.sub_self,
          List.replicate_zero, List.nil_append, Nat.zero_mul, Nat.sub_zero]
        congr 1
        simp only [OTA_CHUNK_SIZE] at hlen ⊢
        omega
      · push_neg at hlen
        have hd : ((a :: l).drop OTA_CHUNK_SIZE).length = (a :: l).length - OTA_CHUNK_SIZE :=
          List.length_drop _ _
        have hne2 : (a :: l).drop OTA_CHUNK_SIZE ≠ [] := by
          intro hc
          rw [hc] at hd
          simp only [List.length_nil] at hd
          omega
        have hle : ((a :: l).drop OTA_CHUNK_SIZE).length ≤ m := by
          rw [hd]
          simp only [OTA_CHUNK_SIZE] at hlen ⊢
          simp only [List.length_cons] at h hlen ⊢
          omega
        have ihd := ih _ hle hne2
        simp only [List.map_cons, ihd, List.length_take, hd]
        simp only [otaTotalChunks, OTA_CHUNK_SIZE, List.length_cons] at hlen ⊢
        have h1 : (l.length + 1 + 2048 - 1) / 2048
            = (l.length + 1 - 2048 + 2048 - 1) / 2048 + 1 := by omega
        have h2 : 1 ≤ (l.length + 1 - 2048 + 2048 - 1) / 2048 := by omega
        obtain ⟨k, hk⟩ : ∃ k, (l.length + 1 - 2048 + 2048 - 1) / 2048 = k + 1 :=
          ⟨(l.length + 1 - 2048 + 2048 - 1) / 2048 - 1, by omega⟩
        rw [h1, hk]
        have hmin : min 2048 (l.length + 1) = 2048 := by omega
        rw [hmin]
        simp only [Nat.add_sub_cancel, List.replicate_succ, List.cons_append,
          List.cons.injEq, true_and]
        have heq : l.length + 1 - 2048 - k * 2048 = l.length + 1 - (k + 1) * 2048 := by omega
        rw [heq]

theorem chunksOf_map_length (fw : List Nat) (hne : fw ≠ []) :
    (chunksOf fw).map List.length
      = List.replicate (otaTotalChunks fw.length - 1) OTA_CHUNK_SIZE
        ++ [fw.length - (otaTotalChunks fw.length - 1) * OTA_CHUNK_SIZE] :=
  chunksOf_map_length_aux fw.length fw le_rfl hne

theorem chunksOf_length (fw : List Nat) (hne : fw ≠ []) :
    (chunksOf fw).length = otaTotalChunks fw.length := by
  have h := congrArg List.length (chunksOf_map_length fw hne)
  simp only [List.length_map, List.length_append, List.length_replicate,
    List.length_cons, List.length_nil] at h
  have h1 : 1 ≤ otaTotalChunks fw.length := by
    apply otaTotalChunks_pos
    cases fw with
    | nil => exact absurd rfl hne
    | cons a l => simp
  omega



theorem sendChunkAttempts_events (seq : Nat) (p : List Nat) :
    ∀ (n : Nat) (st : AckState) (acks : List (Option AckMsg)),
    ∃ j, j ≤ n ∧ (1 ≤ n → 1 ≤ j)
      ∧ (sendChunkAttempts seq p st acks n).events
        = List.replicate j (OtaEv.chunkSent seq p) := by
  intro n
  induction n with
  | zero => intro st acks; exact ⟨0, le_rfl, by omega, rfl⟩
  | succ m ih =>
    intro st acks
    by_cases h : (wait_for_ack (seq : Int) st (acks.headD none)).1
    · refine ⟨1, by omega, fun _ => le_rfl, ?_⟩
      simp only [sendChunkAttempts]
      rw [if_pos h]
      rfl
    · obtain ⟨j, hj1, hj2, hj3⟩ := ih (wait_for_ack (seq : Int) st (acks.headD none)).2 acks.tail
      refine ⟨j + 1, by omega, by omega, ?_⟩
      simp only [sendChunkAttempts, List.replicate_succ]
      rw [if_neg h, hj3]

theorem sorted_le_replicate (j a : Nat) : (List.replicate j a).Sorted (· ≤ ·) := by
  induction j with
  | zero => simp
  | succ m ih =>
    rw [List.replicate_succ, List.sorted_cons]
    exact ⟨fun b hb => le_of_eq (List.eq_of_mem_replicate hb).symm, ih⟩

theorem chunkSeqs_replicate (j seq : Nat) (p : List Nat) :
    chunkSeqs (List.replicate j (OtaEv.chunkSent seq p)) = List.replicate j seq := by
  induction j with
  | zero => rfl
  | succ m ih =>
    simp only [List.replicate_succ, chunkSeqs, List.filterMap_cons] at ih ⊢
    rw [show seqOfEv (OtaEv.chunkSent seq p) = some seq from rfl]
    rw [ih]

theorem chunkSeqs_append (l1 l2 : List OtaEv) :
    chunkSeqs (l1 ++ l2) = chunkSeqs l1 ++ chunkSeqs l2 := by
  simp [chunkSeqs]

theorem replicate_union_of_not_mem (a : Nat) (X : List Nat) (ha : a ∉ X) :
    ∀ j, 1 ≤ j → List.replicate j a ∪ X = a :: X := by
  intro j
  induction j with
  | zero => omega
  | succ m ih =>
    intro _
    cases Nat.eq_zero_or_pos m with
    | inl h0 =>
      subst h0
      show (a :: List.replicate 0 a) ∪ X = a :: X
      rw [List.cons_union]
      simp only [List.replicate_zero, List.nil_union]
      exact List.insert_of_not_mem ha
    | inr hpos =>
      rw [List.replicate_succ, List.cons_union, ih hpos]
      exact List.insert_of_mem (List.mem_cons_self a X)

theorem otaLoop_spec (ps : List (List Nat)) :
    ∀ (seq : Nat) (st : AckState) (acks : List (Option AckMsg)),
    ((chunkSeqs (otaLoop ps seq st acks).events).Sorted (· ≤ ·))
    ∧ (∀ i, i ∈ chunkSeqs (otaLoop ps seq st acks).events ↔ seq ≤ i ∧ i < seq + ps.length)
    ∧ ((chunkSeqs (otaLoop ps seq st acks).events).dedup = List.range' seq ps.length)
    ∧ (∀ s pl, OtaEv.chunkSent s pl ∈ (otaLoop ps seq st acks).events →
        pl = ps.getD (s - seq) [])
    ∧ (∀ e ∈ (otaLoop ps seq st acks).events, ∃ s pl, e = OtaEv.chunkSent s pl) := by
  induction ps with
  | nil =>
    intro seq st acks
    refine ⟨by simp [otaLoop, chunkSeqs], ?_, by simp [otaLoop, chunkSeqs], ?_, ?_⟩
    · intro i
      simp only [otaLoop, chunkSeqs, List.filterMap_nil, List.not_mem_nil, false_iff,
        List.length_nil]
      omega
    · intro s pl h
      simp [otaLoop] at h
    · intro e h
      simp [otaLoop] at h
  | cons p ps ih =>
    intro seq st acks
    obtain ⟨j, hj1, hj2, hj3⟩ :=
      sendChunkAttempts_events seq p OTA_MAX_RETRIES st acks
    have hj : 1 ≤ j := hj2 (by norm_num [OTA_MAX_RETRIES])
    obtain ⟨ihsort, ihmem, ihded, ihpay, ihchunk⟩ :=
      ih (seq + 1) (sendChunkAttempts seq p st acks OTA_MAX_RETRIES).ackSt
        (sendChunkAttempts seq p st acks OTA_MAX_RETRIES).acksRest
    have hev : (otaLoop (p :: ps) seq st acks).events
        = List.replicate j (OtaEv.chunkSent seq p)
          ++ (otaLoop ps (seq + 1) (sendChunkAttempts seq p st acks OTA_MAX_RETRIES).ackSt
              (sendChunkAttempts seq p st acks OTA_MAX_RETRIES).acksRest).events := by
      simp only [otaLoop]
      rw [hj3]
    have hseqs : chunkSeqs (otaLoop (p :: ps) seq st acks).events
        = List.replicate j seq
          ++ chunkSeqs (otaLoop ps (seq + 1)
              (sendChunkAttempts seq p st acks OTA_MAX_RETRIES).ackSt
              (sendChunkAttempts seq p st acks OTA_MAX_RETRIES).acksRest).events := by
      rw [hev, chunkSeqs_append, chunkSeqs_replicate]
    refine ⟨?_, ?_, ?_, ?_, ?_⟩
    · rw [hseqs]
      refine List.pairwise_append.2 ⟨sorted_le_replicate j seq, ihsort, ?_⟩
      intro x hx y hy
      have hxe : x = seq := List.eq_of_mem_replicate hx
      have hye := (ihmem y).1 hy
      omega
    · intro i
      rw [hseqs, List.mem_append, List.mem_replicate, ihmem i]
      simp only [List.length_cons]
      constructor
      · rintro (⟨-, rfl⟩ | ⟨h1, h2⟩) <;> omega
      · rintro ⟨h1, h2⟩
        by_cases hi : i = seq
        · exact Or.inl ⟨by omega, hi⟩
        · exact Or.inr ⟨by omega, by omega⟩
    · rw [hseqs, List.dedup_append, ihded]
      have hnm : seq ∉ List.range' (seq + 1) ps.length := by
        intro hc
        rw [List.mem_range'] at hc
        omega
      rw [replicate_union_of_not_mem seq _ hnm j hj]
      simp [List.range'_succ, List.length_cons]
    · intro s pl h
      rw [hev, List.mem_append] at h
      cases h with
      | inl h =>
        have heq := List.eq_of_mem_replicate h
        injection heq with h1 h2
        subst h1
        subst h2
        simp
      | inr h =>
        have hpl := ihpay s pl h
        have hsge : seq + 1 ≤ s := by
          have hmm : s ∈ chunkSeqs (otaLoop ps (seq + 1)
              (sendChunkAttempts seq p st acks OTA_MAX_RETRIES).ackSt
              (sendChunkAttempts seq p st acks OTA_MAX_RETRIES).acksRest).events := by
            unfold chunkSeqs
            exact List.mem_filterMap.2 ⟨_, h, rfl⟩
          exact ((ihmem s).1 hmm).1
        rw [hpl]
        have hidx : s - seq = (s - (seq + 1)) + 1 := by omega
        rw [hidx, List.getD_cons_succ]
    · intro e he
      rw [hev, List.mem_append] at he
      cases he with
      | inl h => exact ⟨seq, p, List.eq_of_mem_replicate h⟩
      | inr h => exact ihchunk e h


theorem getLast?_cons_concat (x y : OtaEv) (l : List OtaEv) :
    (x :: (l ++ [y])).getLast? = some y := by
  rw [show x :: (l ++ [y]) = (x :: l) ++ [y] from rfl, List.getLast?_concat]

theorem chunkSeqs_handle (fw : List Nat) (acks : List (Option AckMsg)) :
    chunkSeqs (handle_ota_command fw acks).events
      = chunkSeqs (otaLoop (chunksOf fw) 0 ⟨-1, -1⟩ acks).events := by
  simp [handle_ota_command, chunkSeqs, List.filterMap_append, List.filterMap_cons, seqOfEv]

/-- C7: for every firmware image and chunk size 2048, the coordinator
computes `totalChunks = ceil(size / chunkSize)` (the number of chunks read),
the payloads have length `chunkSize` except the last, whose length is
`size - (totalChunks-1)*chunkSize`; the emitted chunk sends carry
nondecreasing seqs whose distinct values, in order of first emission, are
exactly `0 .. totalChunks-1` (strictly increasing), and every emitted chunk
with seq `s` carries the `s`-th payload of the image. -/
theorem C7_chunk_layout (fw : List Nat) (acks : List (Option AckMsg)) (h : fw ≠ []) :
    (chunksOf fw).length = otaTotalChunks fw.length
    ∧ (chunksOf fw).map List.length
      = List.replicate (otaTotalChunks fw.length - 1) OTA_CHUNK_SIZE
        ++ [fw.length - (otaTotalChunks fw.length - 1) * OTA_CHUNK_SIZE]
    ∧ (chunkSeqs (handle_ota_command fw acks).events).Sorted (· ≤ ·)
    ∧ (chunkSeqs (handle_ota_command fw acks).events).dedup
      = List.range (otaTotalChunks fw.length)
    ∧ (∀ s pl, OtaEv.chunkSent s pl ∈ (handle_ota_command fw acks).events →
        pl = (chunksOf fw).getD s []) := by
  obtain ⟨hsort, hmem, hded, hpay, hchunk⟩ := otaLoop_spec (chunksOf fw) 0 ⟨-1, -1⟩ acks
  refine ⟨chunksOf_length fw h, chunksOf_map_length fw h, ?_, ?_, ?_⟩
  · rw [chunkSeqs_handle]
    exact hsort
  · rw [chunkSeqs_handle, hded, chunksOf_length fw h, List.range_eq_range']
  · intro s pl hm
    have hm2 : OtaEv.chunkSent s pl ∈ (otaLoop (chunksOf fw) 0 ⟨-1, -1⟩ acks).events := by
      simpa [handle_ota_command] using hm
    have := hpay s pl hm2
    simpa using this

theorem C7_chunk_layout_witness :
    (List.replicate 4097 (0 : Nat) ≠ [])
    ∧ otaTotalChunks (List.replicate 4097 (0 : Nat)).length = 3
    ∧ (chunksOf (List.replicate 4097 (0 : Nat))).map List.length = [2048, 2048, 1] := by
  have hne : List.replicate 4097 (0 : Nat) ≠ [] := by
    intro hc
    have hlen := congrArg List.length hc
    rw [List.length_replicate] at hlen
    simp at hlen
  refine ⟨hne, ?_, ?_⟩
  · rw [List.length_replicate]
    norm_num [otaTotalChunks, OTA_CHUNK_SIZE]
  · have h := (C7_chunk_layout (List.replicate 4097 0) [] hne).2.1
    rw [h, List.length_replicate]
    norm_num [otaTotalChunks, OTA_CHUNK_SIZE]
    rfl

/-- C9: every OTA transfer that processes its chunks sends the
`OTA_COMPLETE` sentinel exactly once, as the final event, whatever the
device's ack behaviour (including chunks that exhaust their retries). -/
theorem C9_complete_exactly_once (fw : List Nat) (acks : List (Option AckMsg)) :
    (handle_ota_command fw acks).events.count OtaEv.complete = 1
    ∧ (handle_ota_command fw acks).events.getLast? = some OtaEv.complete := by
  obtain ⟨-, -, -, -, hchunk⟩ := otaLoop_spec (chunksOf fw) 0 ⟨-1, -1⟩ acks
  have hnc : OtaEv.complete ∉ (otaLoop (chunksOf fw) 0 ⟨-1, -1⟩ acks).events := by
    intro hm
    obtain ⟨s, pl, he⟩ := hchunk _ hm
    simp at he
  constructor
  · simp only [handle_ota_command, List.count_cons, List.count_append]
    rw [List.count_eq_zero.2 hnc]
    simp
  · simp only [handle_ota_command]
    exact getLast?_cons_concat _ _ _

/-- C1 counterexample: the claim requires the coordinator to wait, bounded
by a ~15 s readiness timeout, for a device readiness signal after the
transfer request, and to send no chunk without it.  In the code there is no
readiness wait at all: with a 1-byte image and a device that sends NOTHING
(every ack wait times out), the trace still contains three sends of chunk 0
immediately after the request, and the transfer completes instead of
aborting. -/
theorem C1_no_readiness_wait_counterexample :
    (handle_ota_command [0] []).events
      = [OtaEv.reqSent 1 1, OtaEv.chunkSent 0 [0], OtaEv.chunkSent 0 [0],
         OtaEv.chunkSent 0 [0], OtaEv.complete] := by
  decide

/-- C1 amended: after sending the transfer-request descriptor the
coordinator proceeds immediately to the chunks: on any non-empty image the
first two events of the transfer are the request and the first send of
chunk 0, regardless of what the device sends; there is no readiness wait,
no readiness timeout, and no abort on a device error notification before
the chunks. -/
theorem C1_request_then_first_chunk (fw : List Nat) (acks : List (Option AckMsg))
    (h : fw ≠ []) :
    (handle_ota_command fw acks).events.take 2
      = [OtaEv.reqSent fw.length (otaTotalChunks fw.length),
         OtaEv.chunkSent 0 (fw.take OTA_CHUNK_SIZE)] := by
  obtain ⟨a, l, rfl⟩ : ∃ a l, fw = a :: l := by
    cases fw with
    | nil => exact absurd rfl h
    | cons a l => exact ⟨a, l, rfl⟩
  obtain ⟨j, hj1, hj2, hj3⟩ :=
    sendChunkAttempts_events 0 ((a :: l).take OTA_CHUNK_SIZE) OTA_MAX_RETRIES ⟨-1, -1⟩ acks
  have hj : 1 ≤ j := hj2 (by norm_num [OTA_MAX_RETRIES])
  obtain ⟨j2, rfl⟩ : ∃ j2, j = j2 + 1 := ⟨j - 1, by omega⟩
  simp only [handle_ota_command, chunksOf_cons, otaLoop, hj3, List.replicate_succ,
    List.cons_append, List.take_succ_cons, List.take_zero]

theorem C1_request_then_first_chunk_witness :
    (([0] : List Nat) ≠ [])
    ∧ (handle_ota_command [0] []).events.take 2
      = [OtaEv.reqSent ([0] : List Nat).length (otaTotalChunks ([0] : List Nat).length),
         OtaEv.chunkSent 0 (([0] : List Nat).take OTA_CHUNK_SIZE)] :=
  ⟨by decide, C1_request_then_first_chunk [0] [] (by decide)⟩

/-- C8 counterexample: the claim states that an ack for another seq does
not conclude the wait for seq `s`.  In the code it does: waiting for seq 1
in the fresh state, an arriving ack for seq 0 makes `wait_for_ack` return
False immediately (spec-style skipping would return True from the arrival
sequence `ack 0, ack 1`), and in the retry loop that mismatched ack
consumes an attempt — the chunk is resent. -/
theorem C8_mismatched_ack_counterexample :
    (wait_for_ack 1 ⟨-1, -1⟩ (some (AckMsg.ack 0))).1 = false
    ∧ wait_for_ack_spec 1 [AckMsg.ack 0, AckMsg.ack 1] = true
    ∧ (sendChunkAttempts 1 [7] ⟨-1, -1⟩ [some (AckMsg.ack 0), some (AckMsg.ack 1)]
        OTA_MAX_RETRIES).events
      = List.replicate 2 (OtaEv.chunkSent 1 [7]) := by
  decide

/-- C8 amended: an ack/nack carrying another seq never yields success, but
it concludes the current wait with failure (triggering a retry) rather than
letting the wait continue: with no stale ack/nack for the awaited seq in
the state, `wait_for_ack` returns False on such an arrival. -/
theorem C8_mismatched_ack_concludes_wait (expected : Int) (st : AckState) (m : AckMsg)
    (hack : st.lastAck ≠ expected) (hnack : st.lastNack ≠ expected)
    (hm : seqOfAck m ≠ expected) :
    (wait_for_ack expected st (some m)).1 = false := by
  cases m with
  | ack n =>
    simp only [seqOfAck] at hm
    simp [wait_for_ack, handle_ota_ack, hm, hnack]
  | nack n =>
    simp only [seqOfAck] at hm
    simp [wait_for_ack, handle_ota_ack, hm, hack]

theorem C8_mismatched_ack_concludes_wait_witness :
    ((⟨-1, -1⟩ : AckState).lastAck ≠ (1 : Int)
      ∧ (⟨-1, -1⟩ : AckState).lastNack ≠ (1 : Int)
      ∧ seqOfAck (AckMsg.ack 0) ≠ (1 : Int))
    ∧ (wait_for_ack 1 ⟨-1, -1⟩ (some (AckMsg.ack 0))).1 = false :=
  ⟨⟨by decide, by decide, by decide⟩,
   C8_mismatched_ack_concludes_wait 1 ⟨-1, -1⟩ (AckMsg.ack 0)
     (by decide) (by decide) (by decide)⟩

end Ptalk
